import Mathlib

/-!
Verification of the packagecloud StackStorm pack (shallow embedding).

The definitions below embed the pure logic of the repository's Python code:

* `format_semver`, `meta_version_to_integer` and the filter/sort part of
  `ListPackagesAction.run` from `actions/list_packages.py`;
* the pagination loop of `ListPackagesAction.run` (page responses are modelled
  as a function from page numbers to decoded pages);
* `api_call`, `get_master_token`, `destroy_master_token` and
  `destroy_read_token` from `actions/lib/packagecloud.py` (HTTP outcomes are
  modelled as functions from attempt numbers / token ids to abstract results).

Python strings are modelled as Lean `String`/`List Char`; Python exceptions
as `Option`/explicit result types.
-/

/-- `charsStartWith s p` is true when the character list `s` begins with `p`
(the model of Python's `str.startswith`). -/
def charsStartWith : List Char → List Char → Bool
  | _, [] => true
  | [], _ :: _ => false
  | a :: as, b :: bs => a = b && charsStartWith as bs

/-- `strStartsWith s p`: the string `s` begins with `p`
(Python `s.startswith(p)`). -/
def strStartsWith (s p : String) : Bool :=
  charsStartWith s.data p.data

/-- Index of the first occurrence of `needle` in `hay`, the model of Python's
`str.index`/`in` (`none` when absent). -/
def indexOfSub (needle : List Char) : List Char → Option Nat
  | [] => if charsStartWith [] needle then some 0 else none
  | c :: rest =>
    if charsStartWith (c :: rest) needle then some 0
    else (indexOfSub needle rest).map (· + 1)

/-- Python character indexing `s[i]`: a negative index counts from the end
(`s[-1]` is the last character); an out-of-range index raises, modelled as
`none`. -/
def pyCharAt (s : List Char) (i : Int) : Option Char :=
  let j : Int := if i < 0 then (s.length : Int) + i else i
  if j < 0 then none else s.get? j.toNat

/-- The character list of the marker `"dev"`. -/
def devChars : List Char := ['d', 'e', 'v']

/-- Embedding of `format_semver` from `actions/list_packages.py`:

    if "dev" in version:
        if version[version.index("dev") - 1] == ".":
            suffix = "0-beta"
        else:
            suffix = ".0-beta"
        version = version[: version.index("dev")] + suffix
    return f"{version}+{release}"
-/
def format_semver (version release : String) : String :=
  match indexOfSub devChars version.data with
  | some i =>
    let suffix : String :=
      if pyCharAt version.data ((i : Int) - 1) = some '.' then "0-beta" else ".0-beta"
    String.mk (version.data.take i) ++ suffix ++ "+" ++ release
  | none => version ++ "+" ++ release

/-- A parsed strict semantic version, as produced by the `semver` library's
`Version.parse` (an absent prerelease or build is the empty string). -/
structure Semver where
  major : Nat
  minor : Nat
  patch : Nat
  prerelease : String
  build : String
deriving DecidableEq

/-- Nonempty and all ASCII digits. -/
def isDigits (s : List Char) : Bool :=
  !s.isEmpty && s.all Char.isDigit

/-- The numeric value of a digit string (caller checks `isDigits`). -/
def natOfDigits (s : List Char) : Nat :=
  s.foldl (fun acc c => acc * 10 + (c.toNat - 48)) 0

/-- Split a character list on a separator character (the model of Python's
`str.split(sep)` for a one-character separator): `splitOnChar '.' "".data`
is `[[]]`, and separators delimit possibly-empty parts. -/
def splitOnChar (sep : Char) : List Char → List (List Char)
  | [] => [[]]
  | c :: rest =>
    if c = sep then [] :: splitOnChar sep rest
    else
      match splitOnChar sep rest with
      | [] => [[c]]
      | h :: t => (c :: h) :: t

/-- Semver numeric components: `0 | [1-9][0-9]*` (no leading zero). -/
def parseNumericId (s : List Char) : Option Nat :=
  if isDigits s && (s.length = 1 || s.head? ≠ some '0') then
    some (natOfDigits s)
  else none

/-- Characters allowed in semver prerelease/build identifiers:
`[0-9A-Za-z-]`. -/
def validIdentChar (c : Char) : Bool :=
  c.isAlphanum || c = '-'

/-- Validity of a semver build component: one or more dot-separated nonempty
alphanumeric-or-hyphen identifiers. -/
def validBuild (s : List Char) : Bool :=
  (splitOnChar '.' s).all fun p => !p.isEmpty && p.all validIdentChar

/-- Validity of one semver prerelease identifier: nonempty,
alphanumeric-or-hyphen, and if purely numeric then no leading zero. -/
def validPrePart (p : List Char) : Bool :=
  !p.isEmpty && p.all validIdentChar &&
    (if p.all Char.isDigit then p.length = 1 || p.head? ≠ some '0' else true)

/-- Validity of a semver prerelease component. -/
def validPre (s : List Char) : Bool :=
  (splitOnChar '.' s).all validPrePart

/-- Parse the `MAJOR.MINOR.PATCH` core of a semver string. -/
def parseCore (s : List Char) : Option (Nat × Nat × Nat) :=
  match splitOnChar '.' s with
  | [a, b, c] =>
    match parseNumericId a, parseNumericId b, parseNumericId c with
    | some x, some y, some z => some (x, y, z)
    | _, _, _ => none
  | _ => none

/-- Parse the part of a semver string before `+`: the numeric core followed by
an optional `-prerelease` (the first `-` separates, since the core contains
only digits and dots). -/
def parseCorePre (s : List Char) : Option (Nat × Nat × Nat × String) :=
  match indexOfSub ['-'] s with
  | none => (parseCore s).map fun (x, y, z) => (x, y, z, "")
  | some i =>
    let pre : List Char := s.drop (i + 1)
    if validPre pre then
      (parseCore (s.take i)).map fun (x, y, z) => (x, y, z, String.mk pre)
    else none

/-- Model of the `semver` library's strict `Version.parse`
(`MAJOR.MINOR.PATCH[-PRERELEASE][+BUILD]`, grammar of semver 2.0.0):
`none` models the `ValueError` raised on an invalid version string. -/
def semver_parse (s : String) : Option Semver :=
  match splitOnChar '+' s.data with
  | [corePre] =>
    (parseCorePre corePre).map fun (x, y, z, pre) => ⟨x, y, z, pre, ""⟩
  | [corePre, build] =>
    if validBuild build then
      (parseCorePre corePre).map fun (x, y, z, pre) => ⟨x, y, z, pre, String.mk build⟩
    else none
  | _ => none

/-- Model of Python `int()` applied to a semver build string (alphabet
`[0-9A-Za-z-]`): an optional sign followed by digits; `none` models the
`ValueError` on anything else. -/
def pyInt (s : String) : Option Int :=
  match s.data with
  | '-' :: rest => if isDigits rest then some (-(natOfDigits rest : Int)) else none
  | '+' :: rest => if isDigits rest then some ((natOfDigits rest : Int)) else none
  | l => if isDigits l then some ((natOfDigits l : Int)) else none

/-- Embedding of `meta_version_to_integer` from `actions/list_packages.py`:

    v = semver.Version.parse(format_semver(version, release))
    return (v.major << 32) + (v.minor << 24) + (v.patch << 16) + int(v.build)

`none` models the exception raised on an unparseable version or build. -/
def meta_version_to_integer (version release : String) : Option Int :=
  (semver_parse (format_semver version release)).bind fun v =>
    (pyInt v.build).map fun b =>
      (((v.major <<< 32) + (v.minor <<< 24) + (v.patch <<< 16) : Nat) : Int) + b

/-- A package record as decoded from the packagecloud API, with the fields
the filter/sort logic reads. -/
structure PkgInfo where
  name : String
  distro_version : String
  version : String
  release : String
deriving DecidableEq

/-- Python truthiness of an optional-string action parameter: `None` and `""`
are falsy. -/
def truthy : Option String → Bool
  | none => false
  | some s => !s.isEmpty

/-- The filter condition of one iteration of the loop in
`ListPackagesAction.run`: a record is kept unless one of the four `continue`
guards fires.

    if package and pkg_info["name"] != package: continue
    if distro_version and pkg_info["distro_version"] != distro_version: continue
    if version and not pkg_info["version"].startswith(version): continue
    if release and pkg_info["release"] != release: continue
-/
def keepPkg (package distro_version version release : Option String) (p : PkgInfo) : Bool :=
  !(truthy package && p.name != package.getD "") &&
  (!(truthy distro_version && p.distro_version != distro_version.getD "") &&
   (!(truthy version && !strStartsWith p.version (version.getD "")) &&
    !(truthy release && p.release != release.getD "")))

/-- The filtering loop of `ListPackagesAction.run`: start from an empty list
and append every record that survives the `continue` guards. -/
def filterPackages (metadata : List PkgInfo)
    (package distro_version version release : Option String) : List PkgInfo :=
  metadata.foldl
    (fun acc p => if keepPkg package distro_version version release p then acc ++ [p] else acc)
    []

/-- The sort key of a record, `meta_version_to_integer` applied to its
`version` and `release` fields (`none` models the exception on unparseable
data). -/
def pkgKey (p : PkgInfo) : Option Int :=
  meta_version_to_integer p.version p.release

/-- Pair every record with its sort key, in list order, failing on the first
record whose key computation raises — the decorate step of Python's
`sorted(packages, key=...)`. -/
def decorate : List PkgInfo → Option (List (Int × PkgInfo))
  | [] => some []
  | p :: rest =>
    match pkgKey p, decorate rest with
    | some k, some l => some ((k, p) :: l)
    | _, _ => none

/-- The comparison used by the sort: Python's `sorted(..., reverse=reverse)`
orders ascending by key, and with `reverse=True` as if every comparison were
reversed. -/
def sortLEb (reverse : Bool) (a b : Int × PkgInfo) : Bool :=
  if reverse then b.1 ≤ a.1 else a.1 ≤ b.1

/-- Model of Python's `sorted` on key-decorated records: a stable sort
ordered by `sortLEb reverse`.  Python's sort is stable, and any two stable
sorts under the same total preorder return the same list, so insertion sort
computes exactly `sorted`'s result. -/
def sortKeyed (reverse : Bool) (l : List (Int × PkgInfo)) : List (Int × PkgInfo) :=
  List.insertionSort (fun a b => sortLEb reverse a b = true) l

/-- The filter-and-sort tail of `ListPackagesAction.run` (everything after
the pagination loop), on the fetched records:

    if sort_packages:
        reverse = sort_type == "descending"
        return sorted(packages, key=..., reverse=reverse)
    return packages

`none` models the exception raised when a sort key cannot be computed. -/
def run_process (metadata : List PkgInfo)
    (package distro_version version release : Option String)
    (sort_packages : Bool) (sort_type : String) : Option (List PkgInfo) :=
  let packages := filterPackages metadata package distro_version version release
  if sort_packages then
    (decorate packages).map fun keyed =>
      (sortKeyed (sort_type == "descending") keyed).map Prod.snd
  else
    some packages

/-- `MAX_PAGE_NUMBER` from `actions/list_packages.py`. -/
def MAX_PAGE_NUMBER : Nat := 100

/-- A decoded successful page response: the JSON record list of the body and
the value of the `Total` header (`none` when the header is absent:
`response.headers.get("Total", 0)` then yields the default `0`). -/
structure PageResp (α : Type) where
  records : List α
  total : Option Nat

/-- The pagination loop of `ListPackagesAction.run`, one step per iteration:

    while page < MAX_PAGE_NUMBER:
        response = requests.get(url + "?page=" + str(page), params)
        metadata += response.json()
        if len(metadata) >= int(response.headers.get("Total", 0)):
            break
        page += 1

`pages` maps each page number to its decoded response (responses are taken
to be successful: a non-200 status or undecodable body raises and aborts the
whole run, which no claim here is about).  `remaining` is
`MAX_PAGE_NUMBER - page`, so `remaining = 0` is exactly the loop condition
`page < MAX_PAGE_NUMBER` failing.  Returns the accumulated records and the
number of page requests issued. -/
def fetch_go {α : Type} (pages : Nat → PageResp α) : Nat → Nat → List α → List α × Nat
  | page, 0, acc => (acc, page - 1)
  | page, rem + 1, acc =>
    let resp := pages page
    let metadata := acc ++ resp.records
    if resp.total.getD 0 ≤ metadata.length then (metadata, page)
    else fetch_go pages (page + 1) rem metadata

/-- The whole pagination loop, started at `page = 1` with no records. -/
def list_packages_fetch {α : Type} (pages : Nat → PageResp α) : List α × Nat :=
  fetch_go pages 1 (MAX_PAGE_NUMBER - 1) []

/-- The records of pages `1, 2, ..., n` concatenated in page order. -/
def pagesConcat {α : Type} (pages : Nat → PageResp α) : Nat → List α
  | 0 => []
  | n + 1 => pagesConcat pages n ++ (pages (n + 1)).records

/-- `ListPackagesAction.run` end to end: paginate, then filter and sort. -/
def list_packages_run (pages : Nat → PageResp PkgInfo)
    (package distro_version version release : Option String)
    (sort_packages : Bool) (sort_type : String) : Option (List PkgInfo) :=
  run_process (list_packages_fetch pages).1
    package distro_version version release sort_packages sort_type

/-- The outcome of one attempt of `api_call`'s request: a successful
response, a transient exception (`HTTPError`, `ConnectionError` or
`Timeout`, all handled by the same branch), or any other `RequestException`.
Payloads are abstract response/exception identifiers. -/
inductive Outcome where
  | success (resp : Nat)
  | transient (err : Nat)
  | fatal (err : Nat)
deriving DecidableEq

/-- How `api_call` ends: return of a response, or `abort` from the transient
branch after exhausting attempts, or `abort` from the catch-all
`RequestException` branch. -/
inductive ApiResult where
  | ok (resp : Nat)
  | abortTransient (err : Nat)
  | abortFatal (err : Nat)
deriving DecidableEq

/-- The retry loop of `api_call` from `actions/lib/packagecloud.py`:

    attempt = 0; maxattempts = 3
    while True:
        try:
            attempt += 1
            resp = Session().send(...); resp.raise_for_status(); break
        except (HTTPError, ConnectionError, Timeout) as ex:
            if attempt >= maxattempts: abort(ex.response)
            else: time.sleep(1); continue
        except RequestException as ex:
            abort(ex.response)

`outcomes n` is what the `n`-th attempt does (attempts are numbered from 1).
`remaining` is `maxattempts - (attempt + 1)` for the incremented attempt
counter, so `remaining = 0` is exactly the `attempt >= maxattempts` test.
Returns the result, the total number of attempts made, and the number of
`time.sleep(1)` calls executed. -/
def api_call_go (outcomes : Nat → Outcome) : Nat → Nat → ApiResult × Nat × Nat
  | attempt, remaining =>
    match outcomes (attempt + 1) with
    | Outcome.success r => (ApiResult.ok r, attempt + 1, 0)
    | Outcome.fatal e => (ApiResult.abortFatal e, attempt + 1, 0)
    | Outcome.transient e =>
      match remaining with
      | 0 => (ApiResult.abortTransient e, attempt + 1, 0)
      | rem + 1 =>
        let res := api_call_go outcomes (attempt + 1) rem
        (res.1, res.2.1, res.2.2 + 1)

/-- `maxattempts` from `api_call`. -/
def maxattempts : Nat := 3

/-- `api_call`, started with `attempt = 0` and `maxattempts = 3`. -/
def api_call (outcomes : Nat → Outcome) : ApiResult × Nat × Nat :=
  api_call_go outcomes 0 (maxattempts - 1)

/-- A token record as returned by the packagecloud token listings; `id`
models the identifier used to address the token in a destroy call
(`paths.self` for master tokens, `id` for read tokens). -/
structure Token where
  name : String
  value : String
  id : String
deriving DecidableEq

/-- The lookup loop of `get_master_token` over the fetched token listing:

    for token in tokens:
        if token['name'] == name:
            return token
    return None
-/
def get_master_token : List Token → String → Option Token
  | [], _ => none
  | t :: rest, name =>
    if t.name = name then some t else get_master_token rest name

/-- The loop of `destroy_master_token` over the fetched token listing: every
token whose name matches gets a DELETE request (there is no `break`); the
value returned here is the sequence of token identifiers a DELETE is issued
for, in iteration order (the Python function itself returns `True`). -/
def destroy_master_token : List Token → String → List String
  | [], _ => []
  | t :: rest, name =>
    if t.name = name then t.id :: destroy_master_token rest name
    else destroy_master_token rest name

/-- The loop of `destroy_read_token` over the read-token listing of the
master token: on a matching name a DELETE is issued; on status 204 the
token's value is returned at once, otherwise the loop continues (and the
function falls through to Python's implicit `None`).  `ok id` tells whether
the DELETE of that token returns 204.  Returns the identifiers deleted, in
order, and the returned value. -/
def destroy_read_token_scan : List Token → String → (String → Bool) → List String × Option String
  | [], _, _ => ([], none)
  | t :: rest, name, ok =>
    if t.name = name then
      if ok t.id then ([t.id], some t.value)
      else
        let res := destroy_read_token_scan rest name ok
        (t.id :: res.1, res.2)
    else destroy_read_token_scan rest name ok

/-! ### Lemmas about substring search -/

theorem charsStartWith_nil_of_ne {needle : List Char} (h : needle ≠ []) :
    charsStartWith [] needle = false := by
  cases needle with
  | nil => exact absurd rfl h
  | cons b bs => rfl

theorem indexOfSub_of_first {needle hay : List Char} {i : Nat}
    (h1 : charsStartWith (hay.drop i) needle = true)
    (h2 : ∀ j, j < i → charsStartWith (hay.drop j) needle = false) :
    indexOfSub needle hay = some i := by
  induction hay generalizing i with
  | nil =>
    have hi : i = 0 := by
      by_contra hne
      have := h2 0 (Nat.pos_of_ne_zero hne)
      simp only [List.drop_nil] at h1 this
      rw [this] at h1
      exact Bool.false_ne_true h1
    subst hi
    simp only [List.drop_nil] at h1
    simp [indexOfSub, h1]
  | cons c rest ih =>
    by_cases h0 : charsStartWith (c :: rest) needle = true
    · have hi : i = 0 := by
        by_contra hne
        have := h2 0 (Nat.pos_of_ne_zero hne)
        simp only [List.drop_zero] at this
        rw [this] at h0
        exact Bool.false_ne_true h0
      subst hi
      simp [indexOfSub, h0]
    · have hi : i ≠ 0 := by
        intro h
        subst h
        simp only [List.drop_zero] at h1
        exact h0 h1
      obtain ⟨i', rfl⟩ := Nat.exists_eq_succ_of_ne_zero hi
      have h1' : charsStartWith (rest.drop i') needle = true := by
        simpa using h1
      have h2' : ∀ j, j < i' → charsStartWith (rest.drop j) needle = false := by
        intro j hj
        have := h2 (j + 1) (Nat.succ_lt_succ hj)
        simpa using this
      simp [indexOfSub, h0, ih h1' h2']

theorem indexOfSub_eq_none {needle hay : List Char} (hne : needle ≠ [])
    (h : ∀ j, j < hay.length → charsStartWith (hay.drop j) needle = false) :
    indexOfSub needle hay = none := by
  induction hay with
  | nil => simp [indexOfSub, charsStartWith_nil_of_ne hne]
  | cons c rest ih =>
    have h0 : charsStartWith (c :: rest) needle = false := by
      simpa using h 0 (by simp)
    have h' : ∀ j, j < rest.length → charsStartWith (rest.drop j) needle = false := by
      intro j hj
      have := h (j + 1) (by simpa using Nat.succ_lt_succ hj)
      simpa using this
    simp [indexOfSub, h0, ih h']

theorem length_le_of_charsStartWith :
    ∀ {s p : List Char}, charsStartWith s p = true → p.length ≤ s.length
  | _, [], _ => by simp
  | [], _ :: _, h => by simp [charsStartWith] at h
  | _ :: as, _ :: bs, h => by
    simp only [charsStartWith, Bool.and_eq_true] at h
    simpa using Nat.succ_le_succ (length_le_of_charsStartWith h.2)

theorem pyCharAt_of_pos {s : List Char} {i : Nat} (hi : 0 < i) :
    pyCharAt s ((i : Int) - 1) = s.get? (i - 1) := by
  unfold pyCharAt
  have hnonneg : ¬ ((i : Int) - 1 < 0) := by omega
  simp only [hnonneg, if_false]
  have : ((i : Int) - 1).toNat = i - 1 := by omega
  rw [this]

/-! ### Claim theorems for the Version Normalizer -/

/-- C1 (counterexample): the claim quantifies over every version string, but
for `version = "dev."` (first occurrence of `"dev"` at index 0) the claim's
rule — no preceding period, hence suffix `".0-beta"` after the (empty) text
before `"dev"` — predicts `".0-beta+1"`, while the code inspects
`version[-1] = '.'` and produces `"0-beta+1"`. -/
theorem format_semver_claim_counterexample :
    format_semver "dev." "1" = "0-beta+1" ∧ ("0-beta+1" : String) ≠ ".0-beta+1" := by
  constructor
  · decide
  · decide

/-- C1 (amended): for every version in which `"dev"` does not occur at
index 0, `format_semver` behaves as the claim states: without `"dev"` it
returns `version + "+" + release` unchanged; with `"dev"` first occurring at
a positive index `i` it keeps the text strictly before `i` and appends
`"0-beta"` when the character immediately preceding the occurrence is a
period and `".0-beta"` otherwise, then `"+" ++ release`; in particular
`"3.9dev-8"` with release `"8"` yields `"3.9.0-beta+8"`. -/
theorem format_semver_spec :
    (∀ version release : String,
       (∀ j, j < version.data.length →
          charsStartWith (version.data.drop j) devChars = false) →
       format_semver version release = version ++ "+" ++ release) ∧
    (∀ version release : String, ∀ i : Nat, 0 < i →
       charsStartWith (version.data.drop i) devChars = true →
       (∀ j, j < i → charsStartWith (version.data.drop j) devChars = false) →
       format_semver version release =
         String.mk (version.data.take i) ++
           (if version.data.get? (i - 1) = some '.' then "0-beta" else ".0-beta") ++
           "+" ++ release) ∧
    format_semver "3.9dev-8" "8" = "3.9.0-beta+8" := by
  refine ⟨?_, ?_, by decide⟩
  · intro version release h
    have hidx : indexOfSub devChars version.data = none :=
      indexOfSub_eq_none (by decide) h
    unfold format_semver
    rw [hidx]
  · intro version release i hi h1 h2
    have hidx : indexOfSub devChars version.data = some i :=
      indexOfSub_of_first h1 h2
    unfold format_semver
    rw [hidx]
    simp only [pyCharAt_of_pos hi]

/-- C1 (witness): the two universally-quantified parts of
`format_semver_spec` applied at `"1.0"` (no `"dev"`) and `"3.9dev-8"`
(first `"dev"` at index 3). -/
theorem format_semver_spec_witness :
    format_semver "1.0" "2" = "1.0" ++ "+" ++ "2" ∧
    format_semver "3.9dev-8" "8" =
      String.mk ("3.9dev-8".data.take 3) ++
        (if "3.9dev-8".data.get? 2 = some '.' then "0-beta" else ".0-beta") ++
        "+" ++ "8" :=
  ⟨format_semver_spec.1 "1.0" "2" (by decide),
   format_semver_spec.2.1 "3.9dev-8" "8" 3 (by decide) (by decide) (by decide)⟩

/-- C9: when `"dev"` occurs at index 0 of the version, the code inspects
`version[-1]`, the last character of the whole string: a trailing period
selects suffix `"0-beta"`, anything else `".0-beta"`, with no special case
for the missing preceding character. -/
theorem format_semver_dev_at_zero (version release : String)
    (h : charsStartWith version.data devChars = true) :
    format_semver version release =
      (if version.data.getLast? = some '.' then "0-beta" else ".0-beta") ++
        "+" ++ release := by
  have hidx : indexOfSub devChars version.data = some 0 :=
    indexOfSub_of_first (by simpa using h) (by intro j hj; omega)
  have hlen : 3 ≤ version.data.length := by
    simpa [devChars] using length_le_of_charsStartWith h
  have hneg : pyCharAt version.data (((0 : Nat) : Int) - 1) = version.data.getLast? := by
    unfold pyCharAt
    have hlt : (((0 : Nat) : Int) - 1) < 0 := by omega
    have hj : ¬ ((version.data.length : Int) + (((0 : Nat) : Int) - 1) < 0) := by omega
    simp only [hlt, if_true, hj, if_false]
    have ht : ((version.data.length : Int) + (((0 : Nat) : Int) - 1)).toNat =
        version.data.length - 1 := by omega
    rw [ht, List.get?_eq_getElem?, ← List.getLast?_eq_getElem?]
  unfold format_semver
  rw [hidx]
  dsimp only
  rw [hneg]
  simp only [List.take_zero]
  apply String.ext
  simp [String.data_append]

/-- C9 (witness): `format_semver_dev_at_zero` at `"dev."` (trailing period)
and the resulting value. -/
theorem format_semver_dev_at_zero_witness :
    format_semver "dev." "1" =
      (if "dev.".data.getLast? = some '.' then "0-beta" else ".0-beta") ++ "+" ++ "1" :=
  format_semver_dev_at_zero "dev." "1" (by decide)

/-! ### Claim theorems for the Version Ordering Key -/

theorem lor_shift_eq_add {a b k : Nat} (hb : b < 2 ^ k) :
    a <<< k ||| b = a <<< k + b := by
  apply Nat.eq_of_testBit_eq
  intro i
  have h1 : a <<< k + b = 2 ^ k * a + b := by
    rw [Nat.shiftLeft_eq, Nat.mul_comm]
  rw [h1, Nat.testBit_mul_pow_two_add a hb i, Nat.testBit_or, Nat.testBit_shiftLeft]
  by_cases hik : i < k
  · have : ¬ (i ≥ k) := by omega
    simp [hik, this]
  · have hk : i ≥ k := by omega
    have hbz : b.testBit i = false :=
      Nat.testBit_lt_two_pow (Nat.lt_of_lt_of_le hb (Nat.pow_le_pow_right (by omega) hk))
    simp [hik, hk, hbz]

theorem pack_add_eq_or {m n p r : Nat}
    (hm : m ≤ 255) (hn : n ≤ 255) (hp : p ≤ 255) (hr : r ≤ 65535) :
    m <<< 32 + n <<< 24 + p <<< 16 + r = ((m <<< 32 ||| n <<< 24) ||| p <<< 16) ||| r := by
  have e16 : p <<< 16 = p * 65536 := by rw [Nat.shiftLeft_eq]
  have e24 : n <<< 24 = n * 16777216 := by rw [Nat.shiftLeft_eq]
  have e32 : m <<< 32 = m * 4294967296 := by rw [Nat.shiftLeft_eq]
  have p16 : (2 : Nat) ^ 16 = 65536 := by norm_num
  have p24 : (2 : Nat) ^ 24 = 16777216 := by norm_num
  have p32 : (2 : Nat) ^ 32 = 4294967296 := by norm_num
  have h1 : p <<< 16 ||| r = p <<< 16 + r :=
    lor_shift_eq_add (by rw [p16]; omega)
  have h2 : n <<< 24 ||| (p <<< 16 + r) = n <<< 24 + (p <<< 16 + r) :=
    lor_shift_eq_add (by rw [e16, p24]; omega)
  have h3 : m <<< 32 ||| (n <<< 24 + (p <<< 16 + r)) = m <<< 32 + (n <<< 24 + (p <<< 16 + r)) :=
    lor_shift_eq_add (by rw [e16, e24, p32]; omega)
  rw [Nat.lor_assoc, Nat.lor_assoc, h1, h2, h3]
  omega

/-- C2: whenever the normalized version parses (components `v`) and the
build parses as an integer `b`, and the components fit their fields
(`major`, `minor`, `patch` at most 255, `0 ≤ b ≤ 65535`), the arithmetic
sum computed by `meta_version_to_integer` equals the bit-packed value
`(major <<< 32) ||| (minor <<< 24) ||| (patch <<< 16) ||| release`. -/
theorem meta_version_to_integer_packs (version release : String) (v : Semver) (b k : Int)
    (hv : semver_parse (format_semver version release) = some v)
    (hb : pyInt v.build = some b)
    (hk : meta_version_to_integer version release = some k)
    (hm : v.major ≤ 255) (hn : v.minor ≤ 255) (hp : v.patch ≤ 255)
    (hb0 : 0 ≤ b) (hb1 : b ≤ 65535) :
    k = ((((v.major <<< 32) ||| (v.minor <<< 24)) ||| (v.patch <<< 16)) ||| b.toNat : Nat) := by
  unfold meta_version_to_integer at hk
  rw [hv] at hk
  simp only [Option.some_bind] at hk
  rw [hb] at hk
  simp only [Option.map_some'] at hk
  have hk' : k = ((v.major <<< 32 + v.minor <<< 24 + v.patch <<< 16 : Nat) : Int) + b :=
    (Option.some.injEq _ _ ▸ hk).symm
  have hbn : b = ((b.toNat : Nat) : Int) := (Int.toNat_of_nonneg hb0).symm
  have hrn : b.toNat ≤ 65535 := by omega
  rw [hk', hbn, ← Nat.cast_add]
  exact congrArg _ (pack_add_eq_or hm hn hp hrn)

/-- C2 (witness): `meta_version_to_integer_packs` at version `"3.9dev"`,
release `"8"`, which normalizes to `"3.9.0-beta+8"` and parses to
components `(3, 9, 0)` with build `8`. -/
theorem meta_version_to_integer_packs_witness :
    ((((3 : Nat) <<< 32) + (9 <<< 24) + (0 <<< 16) : Nat) : Int) + 8 =
      (((((3 : Nat) <<< 32) ||| (9 <<< 24)) ||| (0 <<< 16)) ||| (8 : Int).toNat : Nat) :=
  meta_version_to_integer_packs "3.9dev" "8" ⟨3, 9, 0, "beta", "8"⟩ 8 _
    (by decide) (by decide) (by decide)
    (by decide) (by decide) (by decide) (by decide) (by decide)

/-! ### Claim theorems for the Package Filter -/

theorem foldl_append_eq_filter {α : Type} (pred : α → Bool) (l : List α) :
    ∀ acc : List α,
      l.foldl (fun acc p => if pred p then acc ++ [p] else acc) acc = acc ++ l.filter pred := by
  induction l with
  | nil => intro acc; simp
  | cons p rest ih =>
    intro acc
    by_cases hp : pred p
    · simp [List.foldl_cons, hp, ih, List.filter_cons, List.append_assoc]
    · simp [List.foldl_cons, hp, ih, List.filter_cons]

/-- C4: the filtering loop retains exactly the records satisfying every
supplied non-empty criterion — name and distro-version and release by
equality, version by a `startswith` test — in their original order (it
equals `List.filter` of the conjunction, and an absent or empty criterion
contributes no constraint); in particular version-criterion `"2."` over
versions `"2.0"`, `"2.1"`, `"3.0"` retains exactly the first two. -/
theorem filterPackages_characterization (metadata : List PkgInfo)
    (package distro_version version release : Option String) :
    filterPackages metadata package distro_version version release =
      metadata.filter (fun p =>
        (!truthy package || p.name == package.getD "") &&
        ((!truthy distro_version || p.distro_version == distro_version.getD "") &&
         ((!truthy version || strStartsWith p.version (version.getD "")) &&
          (!truthy release || p.release == release.getD "")))) ∧
    filterPackages
        [⟨"st2", "x", "2.0", "1"⟩, ⟨"st2", "x", "2.1", "1"⟩, ⟨"st2", "x", "3.0", "1"⟩]
        none none (some "2.") none =
      [⟨"st2", "x", "2.0", "1"⟩, ⟨"st2", "x", "2.1", "1"⟩] := by
  constructor
  · rw [filterPackages, foldl_append_eq_filter]
    rw [List.nil_append]
    apply List.filter_congr
    intro p _
    simp [keepPkg, Bool.not_and, bne]
  · decide

/-! ### Lemmas about the decorate-sort-undecorate pipeline -/

theorem decorate_map_snd :
    ∀ {l : List PkgInfo} {keyed : List (Int × PkgInfo)},
      decorate l = some keyed → keyed.map Prod.snd = l := by
  intro l
  induction l with
  | nil => intro keyed h; simp [decorate] at h; simp [← h]
  | cons p rest ih =>
    intro keyed h
    simp only [decorate] at h
    cases hk : pkgKey p with
    | none => rw [hk] at h; exact absurd h (by simp)
    | some k =>
      rw [hk] at h
      cases hd : decorate rest with
      | none => rw [hd] at h; exact absurd h (by simp)
      | some l' =>
        rw [hd] at h
        simp only [Option.some.injEq] at h
        subst h
        simp [ih hd]

theorem decorate_mem_key :
    ∀ {l : List PkgInfo} {keyed : List (Int × PkgInfo)},
      decorate l = some keyed → ∀ x ∈ keyed, pkgKey x.2 = some x.1 := by
  intro l
  induction l with
  | nil => intro keyed h; simp [decorate] at h; subst h; simp
  | cons p rest ih =>
    intro keyed h
    simp only [decorate] at h
    cases hk : pkgKey p with
    | none => rw [hk] at h; exact absurd h (by simp)
    | some k =>
      rw [hk] at h
      cases hd : decorate rest with
      | none => rw [hd] at h; exact absurd h (by simp)
      | some l' =>
        rw [hd] at h
        simp only [Option.some.injEq] at h
        subst h
        intro x hx
        rcases List.mem_cons.mp hx with hx | hx
        · subst hx; exact hk
        · exact ih hd x hx

theorem decorate_isSome :
    ∀ {l : List PkgInfo}, (∀ p ∈ l, (pkgKey p).isSome) →
      ∃ keyed, decorate l = some keyed := by
  intro l
  induction l with
  | nil => intro _; exact ⟨[], rfl⟩
  | cons p rest ih =>
    intro h
    obtain ⟨k, hk⟩ := Option.isSome_iff_exists.mp (h p (List.mem_cons_self p rest))
    obtain ⟨l', hl'⟩ := ih fun q hq => h q (List.mem_cons_of_mem p hq)
    exact ⟨(k, p) :: l', by simp [decorate, hk, hl']⟩

theorem filter_orderedInsert {α : Type} (r : α → α → Prop) [DecidableRel r] (q : α → Bool)
    (a : α) (h : q a = true → ∀ x, q x = true → r a x) :
    ∀ l : List α,
      (l.orderedInsert r a).filter q = if q a then a :: l.filter q else l.filter q := by
  intro l
  induction l with
  | nil =>
    by_cases hqa : q a = true <;>
      simp [List.orderedInsert, List.filter_cons, hqa]
  | cons b bs ih =>
    by_cases hr : r a b
    · rw [List.orderedInsert_of_le r bs hr]
      by_cases hqa : q a = true
      · simp [List.filter_cons, hqa]
      · have hqa2 : q a = false := by simpa using hqa
        simp [List.filter_cons, hqa2]
    · simp only [List.orderedInsert, if_neg hr]
      by_cases hqa : q a = true
      · have hqb : q b = false := by
          cases hqb : q b
          · rfl
          · exact absurd (h hqa b hqb) hr
        simp [List.filter_cons, hqb, ih, hqa]
      · have hqa2 : q a = false := by simpa using hqa
        simp [List.filter_cons, ih, hqa, hqa2]

theorem filter_insertionSort {α : Type} (r : α → α → Prop) [DecidableRel r] (q : α → Bool)
    (h : ∀ a b, q a = true → q b = true → r a b) :
    ∀ l : List α, (l.insertionSort r).filter q = l.filter q := by
  intro l
  induction l with
  | nil => simp
  | cons a as ih =>
    simp only [List.insertionSort]
    rw [filter_orderedInsert r q a (fun ha x hx => h a x ha hx)]
    by_cases hqa : q a = true
    · simp [List.filter_cons, hqa, ih]
    · simp [List.filter_cons, hqa, ih]

/-! ### Claim theorems for the Package Sort -/

/-- C3 (counterexample): on the claim's own example — two records with
version `"1.0"` and releases `"1"`, `"2"` — the descending sort does not
return any ordered sequence: `"1.0+1"` is not a valid strict semantic
version (`semver.Version.parse` requires three numeric components), so the
key computation raises and the run fails. -/
theorem run_process_onedot_counterexample :
    run_process [⟨"st2", "x", "1.0", "1"⟩, ⟨"st2", "x", "1.0", "2"⟩]
      none none none none true "descending" = none := by decide

/-- C3 (amended): when sorting is requested and every filtered record's
Version Ordering Key is computable, the returned sequence is a permutation
of the filtered records, ordered by key — descending exactly when
`sort_type = "descending"`, ascending otherwise — and stable (records with
equal keys keep their original relative order); without sorting the
filtered sequence is returned unchanged.  The claim's example records must
use three-component versions such as `"1.0.0"` (with version `"1.0"` the
key computation fails and the run raises instead). -/
theorem run_process_sort_spec (metadata : List PkgInfo)
    (package distro_version version release : Option String) (sort_type : String)
    (packages : List PkgInfo)
    (hp : packages = filterPackages metadata package distro_version version release)
    (hkeys : ∀ p ∈ packages, (pkgKey p).isSome) :
    run_process metadata package distro_version version release false sort_type =
      some packages ∧
    ∃ result,
      run_process metadata package distro_version version release true sort_type =
        some result ∧
      result.Perm packages ∧
      (∀ v : Int, result.filter (fun p => decide (pkgKey p = some v)) =
        packages.filter (fun p => decide (pkgKey p = some v))) ∧
      result.Pairwise (fun p q => ∀ kp kq, pkgKey p = some kp → pkgKey q = some kq →
        if sort_type = "descending" then kq ≤ kp else kp ≤ kq) := by
  subst hp
  set pkgs := filterPackages metadata package distro_version version release with hpk
  constructor
  · unfold run_process
    rw [← hpk]
    simp
  · obtain ⟨keyed, hkeyed⟩ := decorate_isSome hkeys
    set rev := (sort_type == "descending") with hrev
    set r : (Int × PkgInfo) → (Int × PkgInfo) → Prop :=
      fun a b => sortLEb rev a b = true with hr
    have hperm : List.Perm (List.insertionSort r keyed) keyed := List.perm_insertionSort r keyed
    have hmem := decorate_mem_key hkeyed
    have hmemS : ∀ x, x ∈ List.insertionSort r keyed → pkgKey x.2 = some x.1 :=
      fun x hx => hmem x (hperm.mem_iff.mp hx)
    refine ⟨(List.insertionSort r keyed).map Prod.snd, ?_, ?_, ?_, ?_⟩
    · unfold run_process
      rw [← hpk]
      simp [hkeyed, sortKeyed]
    · have := hperm.map Prod.snd
      rwa [decorate_map_snd hkeyed] at this
    · intro v
      have hq : ∀ a b : Int × PkgInfo,
          (fun x : Int × PkgInfo => decide (x.1 = v)) a = true →
          (fun x : Int × PkgInfo => decide (x.1 = v)) b = true → r a b := by
        intro a b ha hb
        simp only [decide_eq_true_eq] at ha hb
        cases hrb : rev <;> simp [hr, sortLEb, hrb, ha, hb]
      have e1 : (List.insertionSort r keyed).filter
            (fun x : Int × PkgInfo => decide (pkgKey x.2 = some v)) =
          (List.insertionSort r keyed).filter (fun x : Int × PkgInfo => decide (x.1 = v)) := by
        apply List.filter_congr
        intro x hx
        rw [hmemS x hx]
        simp
      have e3 : keyed.filter (fun x : Int × PkgInfo => decide (x.1 = v)) =
          keyed.filter (fun x : Int × PkgInfo => decide (pkgKey x.2 = some v)) := by
        apply List.filter_congr
        intro x hx
        rw [hmem x hx]
        simp
      calc ((List.insertionSort r keyed).map Prod.snd).filter
              (fun p => decide (pkgKey p = some v))
          = ((List.insertionSort r keyed).filter
              (fun x : Int × PkgInfo => decide (pkgKey x.2 = some v))).map Prod.snd := by
            rw [List.filter_map]
            rfl
        _ = ((List.insertionSort r keyed).filter
              (fun x : Int × PkgInfo => decide (x.1 = v))).map Prod.snd := by rw [e1]
        _ = (keyed.filter (fun x : Int × PkgInfo => decide (x.1 = v))).map Prod.snd := by
            rw [filter_insertionSort r _ hq keyed]
        _ = (keyed.filter (fun x : Int × PkgInfo => decide (pkgKey x.2 = some v))).map
              Prod.snd := by rw [e3]
        _ = (keyed.map Prod.snd).filter (fun p => decide (pkgKey p = some v)) := by
            rw [List.filter_map]
            rfl
        _ = pkgs.filter (fun p => decide (pkgKey p = some v)) := by
            rw [decorate_map_snd hkeyed]
    · haveI : IsTotal (Int × PkgInfo) r :=
        ⟨by intro a b; cases hrb : rev <;> simp [hr, sortLEb, hrb] <;> omega⟩
      haveI : IsTrans (Int × PkgInfo) r :=
        ⟨by intro a b c; cases hrb : rev <;> simp [hr, sortLEb, hrb] <;> omega⟩
      have hsorted : List.Pairwise r (List.insertionSort r keyed) :=
        List.sorted_insertionSort r keyed
      rw [List.pairwise_map]
      apply List.Pairwise.imp_of_mem ?_ hsorted
      intro a b ha hb hab kp kq hkp hkq
      rw [hmemS a ha] at hkp
      rw [hmemS b hb] at hkq
      have hkp' : kp = a.1 := (Option.some.injEq _ _ ▸ hkp).symm
      have hkq' : kq = b.1 := (Option.some.injEq _ _ ▸ hkq).symm
      subst hkp'
      subst hkq'
      by_cases hst : sort_type = "descending"
      · have hrt : rev = true := by
          rw [hrev]
          exact beq_iff_eq.mpr hst
        rw [hr, sortLEb, hrt] at hab
        simp at hab
        simp [hst, hab]
      · have hrf : rev = false := by
          rw [hrev]
          exact beq_eq_false_iff_ne.mpr hst
        rw [hr, sortLEb, hrf] at hab
        simp at hab
        simp [hst, hab]

/-- C3 (witness): `run_process_sort_spec` on records with versions
`"1.0.0"` and releases `"1"`, `"2"`, descending, together with the concrete
orders: descending puts release `"2"` first, ascending release `"1"`. -/
theorem run_process_sort_spec_witness :
    (run_process [⟨"st2", "x", "1.0.0", "1"⟩, ⟨"st2", "x", "1.0.0", "2"⟩]
        none none none none false "descending" =
      some [⟨"st2", "x", "1.0.0", "1"⟩, ⟨"st2", "x", "1.0.0", "2"⟩] ∧
     ∃ result,
       run_process [⟨"st2", "x", "1.0.0", "1"⟩, ⟨"st2", "x", "1.0.0", "2"⟩]
           none none none none true "descending" = some result ∧
       result.Perm [⟨"st2", "x", "1.0.0", "1"⟩, ⟨"st2", "x", "1.0.0", "2"⟩] ∧
       (∀ v : Int, result.filter (fun p => decide (pkgKey p = some v)) =
         [(⟨"st2", "x", "1.0.0", "1"⟩ : PkgInfo), ⟨"st2", "x", "1.0.0", "2"⟩].filter
           (fun p => decide (pkgKey p = some v))) ∧
       result.Pairwise (fun p q => ∀ kp kq, pkgKey p = some kp → pkgKey q = some kq →
         if ("descending" : String) = "descending" then kq ≤ kp else kp ≤ kq)) ∧
    run_process [⟨"st2", "x", "1.0.0", "1"⟩, ⟨"st2", "x", "1.0.0", "2"⟩]
        none none none none true "descending" =
      some [⟨"st2", "x", "1.0.0", "2"⟩, ⟨"st2", "x", "1.0.0", "1"⟩] ∧
    run_process [⟨"st2", "x", "1.0.0", "1"⟩, ⟨"st2", "x", "1.0.0", "2"⟩]
        none none none none true "ascending" =
      some [⟨"st2", "x", "1.0.0", "1"⟩, ⟨"st2", "x", "1.0.0", "2"⟩] :=
  ⟨run_process_sort_spec [⟨"st2", "x", "1.0.0", "1"⟩, ⟨"st2", "x", "1.0.0", "2"⟩]
      none none none none "descending" _ (by decide) (by decide),
   by decide, by decide⟩

/-! ### Claim theorems for the HTTP Request Executor -/

/-- C5: `api_call` makes at most 3 attempts; a transient failure
(`HTTPError`/`ConnectionError`/`Timeout`) before the third attempt causes
one `sleep(1)` and an identical retry; transient failures on attempts 1 and
2 followed by success on attempt 3 return that response after exactly 3
attempts and 2 sleeps; a third consecutive transient failure aborts with no
4th attempt; any other `RequestException` on the first attempt aborts at
once, with no retry and no sleep. -/
theorem api_call_spec (outcomes : Nat → Outcome) :
    (api_call outcomes).2.1 ≤ 3 ∧
    (∀ e, outcomes 1 = Outcome.transient e →
       2 ≤ (api_call outcomes).2.1 ∧ 1 ≤ (api_call outcomes).2.2) ∧
    (∀ e1 e2 r, outcomes 1 = Outcome.transient e1 → outcomes 2 = Outcome.transient e2 →
       outcomes 3 = Outcome.success r →
       api_call outcomes = (ApiResult.ok r, 3, 2)) ∧
    (∀ e1 e2 e3, outcomes 1 = Outcome.transient e1 → outcomes 2 = Outcome.transient e2 →
       outcomes 3 = Outcome.transient e3 →
       api_call outcomes = (ApiResult.abortTransient e3, 3, 2)) ∧
    (∀ e, outcomes 1 = Outcome.fatal e →
       api_call outcomes = (ApiResult.abortFatal e, 1, 0)) := by
  refine ⟨?_, ?_, ?_, ?_, ?_⟩
  · cases h1 : outcomes 1 <;> try (simp [api_call, maxattempts, api_call_go, h1])
    cases h2 : outcomes 2 <;> try (simp [api_call, maxattempts, api_call_go, h1, h2])
    cases h3 : outcomes 3 <;> simp [api_call, maxattempts, api_call_go, h1, h2, h3]
  · intro e h1
    cases h2 : outcomes 2 <;> try (simp [api_call, maxattempts, api_call_go, h1, h2])
    cases h3 : outcomes 3 <;> simp [api_call, maxattempts, api_call_go, h1, h2, h3]
  · intro e1 e2 r h1 h2 h3
    simp [api_call, maxattempts, api_call_go, h1, h2, h3]
  · intro e1 e2 e3 h1 h2 h3
    simp [api_call, maxattempts, api_call_go, h1, h2, h3]
  · intro e h1
    simp [api_call, maxattempts, api_call_go, h1]

/-- C5 (witness): `api_call_spec` applied to an outcome sequence that fails
transiently twice and succeeds on the third attempt, and to one that fails
fatally at once. -/
theorem api_call_spec_witness :
    api_call (fun n => if n = 1 then Outcome.transient 11
      else if n = 2 then Outcome.transient 12 else Outcome.success 7) =
      (ApiResult.ok 7, 3, 2) ∧
    api_call (fun _ => Outcome.fatal 9) = (ApiResult.abortFatal 9, 1, 0) :=
  ⟨(api_call_spec _).2.2.1 11 12 7 rfl rfl rfl,
   (api_call_spec _).2.2.2.2 9 rfl⟩

/-! ### Claim theorems for the Paginated Fetch -/

set_option maxRecDepth 1000000

theorem fetch_go_step {α : Type} (pages : Nat → PageResp α) (page rem : Nat) (acc : List α) :
    fetch_go pages page (rem + 1) acc =
      if (pages page).total.getD 0 ≤ (acc ++ (pages page).records).length
      then (acc ++ (pages page).records, page)
      else fetch_go pages (page + 1) rem (acc ++ (pages page).records) := rfl

theorem fetch_go_spec {α : Type} (pages : Nat → PageResp α) :
    ∀ (rem page : Nat) (acc : List α),
      1 ≤ page →
      acc = pagesConcat pages (page - 1) →
      (∀ k, 1 ≤ k → k < page → (pagesConcat pages k).length < (pages k).total.getD 0) →
      (fetch_go pages page rem acc).1 = pagesConcat pages (fetch_go pages page rem acc).2 ∧
      page - 1 ≤ (fetch_go pages page rem acc).2 ∧
      (fetch_go pages page rem acc).2 ≤ page - 1 + rem ∧
      (1 ≤ rem → page ≤ (fetch_go pages page rem acc).2) ∧
      (∀ k, 1 ≤ k → k < (fetch_go pages page rem acc).2 →
        (pagesConcat pages k).length < (pages k).total.getD 0) ∧
      ((pages (fetch_go pages page rem acc).2).total.getD 0 ≤
          (pagesConcat pages (fetch_go pages page rem acc).2).length ∨
        (fetch_go pages page rem acc).2 = page - 1 + rem) := by
  intro rem
  induction rem with
  | zero =>
    intro page acc hpage hacc hinv
    simp only [fetch_go]
    refine ⟨hacc, Nat.le_refl _, by omega, by omega, ?_, Or.inr (by omega)⟩
    intro k hk1 hk2
    exact hinv k hk1 (by omega)
  | succ rem ih =>
    intro page acc hpage hacc hinv
    have hstep : page - 1 + 1 = page := by omega
    have hconcat : acc ++ (pages page).records = pagesConcat pages page := by
      calc acc ++ (pages page).records
          = pagesConcat pages (page - 1) ++ (pages (page - 1 + 1)).records := by
            rw [hacc, hstep]
        _ = pagesConcat pages (page - 1 + 1) := rfl
        _ = pagesConcat pages page := by rw [hstep]
    by_cases hstop : (pages page).total.getD 0 ≤ (acc ++ (pages page).records).length
    · have hres : fetch_go pages page (rem + 1) acc = (acc ++ (pages page).records, page) := by
        rw [fetch_go_step, if_pos hstop]
      rw [hres]
      refine ⟨hconcat, by omega, by omega, fun _ => by omega, ?_, ?_⟩
      · intro k hk1 hk2
        exact hinv k hk1 hk2
      · left
        rw [← hconcat]
        exact hstop
    · have hres : fetch_go pages page (rem + 1) acc =
          fetch_go pages (page + 1) rem (acc ++ (pages page).records) := by
        rw [fetch_go_step, if_neg hstop]
      have hacc2 : acc ++ (pages page).records = pagesConcat pages (page + 1 - 1) := by
        rw [hconcat]
        congr 1
      have hinv2 : ∀ k, 1 ≤ k → k < page + 1 →
          (pagesConcat pages k).length < (pages k).total.getD 0 := by
        intro k hk1 hk2
        by_cases hkp : k < page
        · exact hinv k hk1 hkp
        · have hkeq : k = page := by omega
          subst hkeq
          rw [← hconcat]
          omega
      obtain ⟨i1, i2, i3, i4, i5, i6⟩ :=
        ih (page + 1) (acc ++ (pages page).records) (by omega) hacc2 hinv2
      rw [hres]
      refine ⟨i1, by omega, by omega, fun _ => by omega, i5, ?_⟩
      rcases i6 with i6 | i6
      · exact Or.inl i6
      · exact Or.inr (by omega)

/-- C6: the pagination loop of `ListPackagesAction.run` requests pages
1, 2, 3, … in order: the result is the concatenation of the records of
pages 1 through `n` (where `n` is the number of requests issued), every
page before the last left the accumulated count short of that response's
`Total`, and the loop stops on reaching `Total` (or at the page-number
bound); against the simulated 3-page API with `Total = 250` and 100, 100
and 50 records per page it issues exactly 3 requests and returns the 250
records in order. -/
theorem fetch_pages_in_order {α : Type} (pages : Nat → PageResp α) :
    (list_packages_fetch pages).1 = pagesConcat pages (list_packages_fetch pages).2 ∧
    1 ≤ (list_packages_fetch pages).2 ∧
    (∀ k, 1 ≤ k → k < (list_packages_fetch pages).2 →
      (pagesConcat pages k).length < (pages k).total.getD 0) ∧
    ((pages (list_packages_fetch pages).2).total.getD 0 ≤
        (list_packages_fetch pages).1.length ∨
      (list_packages_fetch pages).2 = MAX_PAGE_NUMBER - 1) ∧
    list_packages_fetch (fun p => PageResp.mk
        (List.range' ((p - 1) * 100) (if p ≤ 2 then 100 else if p = 3 then 50 else 0))
        (some 250)) = (List.range' 0 250, 3) := by
  have hmax : MAX_PAGE_NUMBER = 100 := rfl
  unfold list_packages_fetch
  obtain ⟨i1, i2, i3, i4, i5, i6⟩ :=
    fetch_go_spec pages (MAX_PAGE_NUMBER - 1) 1 [] (by omega) rfl
      (by intro k hk1 hk2; omega)
  refine ⟨i1, i4 (by omega), i5, ?_, by decide⟩
  rcases i6 with i6 | i6
  · left
    rw [i1]
    exact i6
  · right
    omega

/-- C6 (witness): `fetch_pages_in_order` at a one-page response sequence
(every page holds one record and reports `Total = 1`). -/
theorem fetch_pages_in_order_witness :
    (list_packages_fetch (fun p => PageResp.mk [p] (some 1))).1 =
      pagesConcat (fun p => PageResp.mk [p] (some 1))
        (list_packages_fetch (fun p => PageResp.mk [p] (some 1))).2 ∧
    1 ≤ (list_packages_fetch (fun p => PageResp.mk [p] (some 1))).2 ∧
    (∀ k, 1 ≤ k → k < (list_packages_fetch (fun p => PageResp.mk [p] (some 1))).2 →
      (pagesConcat (fun p => PageResp.mk [p] (some 1)) k).length <
        ((fun p => PageResp.mk [p] (some 1)) k).total.getD 0) ∧
    (((fun p => PageResp.mk [p] (some 1))
          (list_packages_fetch (fun p => PageResp.mk [p] (some 1))).2).total.getD 0 ≤
        (list_packages_fetch (fun p => PageResp.mk [p] (some 1))).1.length ∨
      (list_packages_fetch (fun p => PageResp.mk [p] (some 1))).2 = MAX_PAGE_NUMBER - 1) ∧
    list_packages_fetch (fun p => PageResp.mk
        (List.range' ((p - 1) * 100) (if p ≤ 2 then 100 else if p = 3 then 50 else 0))
        (some 250)) = (List.range' 0 250, 3) :=
  fetch_pages_in_order (fun p => PageResp.mk [p] (some 1))

/-- C7: for every sequence of page responses — the `Total` header may be
inconsistent or never reached — the pagination loop stops after at most
`MAX_PAGE_NUMBER - 1 = 99` page requests: it stops on reaching the
response's `Total`, or at the page-number bound, whichever comes first. -/
theorem fetch_terminates {α : Type} (pages : Nat → PageResp α) :
    (list_packages_fetch pages).2 ≤ MAX_PAGE_NUMBER - 1 ∧
    ((pages (list_packages_fetch pages).2).total.getD 0 ≤
        (list_packages_fetch pages).1.length ∨
      (list_packages_fetch pages).2 = MAX_PAGE_NUMBER - 1) := by
  have hmax : MAX_PAGE_NUMBER = 100 := rfl
  unfold list_packages_fetch
  obtain ⟨i1, i2, i3, i4, i5, i6⟩ :=
    fetch_go_spec pages (MAX_PAGE_NUMBER - 1) 1 [] (by omega) rfl
      (by intro k hk1 hk2; omega)
  refine ⟨by omega, ?_⟩
  rcases i6 with i6 | i6
  · left
    rw [i1]
    exact i6
  · right
    omega

/-- C7 (witness): `fetch_terminates` at a response sequence whose `Total`
is never reached (each page holds one record, `Total = 1000`): the loop
still stops, after exactly 99 requests. -/
theorem fetch_terminates_witness :
    ((list_packages_fetch (fun p => PageResp.mk [p] (some 1000))).2 ≤ MAX_PAGE_NUMBER - 1 ∧
      (((fun p => PageResp.mk [p] (some 1000))
            (list_packages_fetch (fun p => PageResp.mk [p] (some 1000))).2).total.getD 0 ≤
          (list_packages_fetch (fun p => PageResp.mk [p] (some 1000))).1.length ∨
        (list_packages_fetch (fun p => PageResp.mk [p] (some 1000))).2 =
          MAX_PAGE_NUMBER - 1)) ∧
    (list_packages_fetch (fun p => PageResp.mk [p] (some 1000) : Nat → PageResp Nat)).2 = 99 :=
  ⟨fetch_terminates (fun p => PageResp.mk [p] (some 1000)), by decide⟩

/-- C10: when the first page's response carries no `Total` header,
`response.headers.get("Total", 0)` yields 0, the stop test
`len(metadata) >= 0` holds at once, and exactly one page request is made:
the whole run filters, sorts and returns just that first page's records. -/
theorem fetch_missing_total (pages : Nat → PageResp PkgInfo)
    (h : (pages 1).total = none)
    (package distro_version version release : Option String) (sp : Bool) (st : String) :
    list_packages_fetch pages = ((pages 1).records, 1) ∧
    list_packages_run pages package distro_version version release sp st =
      run_process (pages 1).records package distro_version version release sp st := by
  have h1 : list_packages_fetch pages = ((pages 1).records, 1) := by
    show fetch_go pages 1 (MAX_PAGE_NUMBER - 1) [] = ((pages 1).records, 1)
    rw [show MAX_PAGE_NUMBER - 1 = 98 + 1 from rfl, fetch_go_step]
    rw [if_pos (by rw [h]; exact Nat.zero_le _)]
    rw [List.nil_append]
  refine ⟨h1, ?_⟩
  unfold list_packages_run
  rw [h1]

/-- C10 (witness): `fetch_missing_total` on a response sequence whose
first page has one record and no `Total` header. -/
theorem fetch_missing_total_witness :
    list_packages_fetch (fun _ => PageResp.mk [⟨"st2", "x", "1.0.0", "1"⟩] none) =
      (((fun _ => PageResp.mk [(⟨"st2", "x", "1.0.0", "1"⟩ : PkgInfo)] none) 1).records, 1) ∧
    list_packages_run (fun _ => PageResp.mk [⟨"st2", "x", "1.0.0", "1"⟩] none)
        none none none none false "descending" =
      run_process ((fun _ => PageResp.mk [(⟨"st2", "x", "1.0.0", "1"⟩ : PkgInfo)] none) 1).records
        none none none none false "descending" :=
  fetch_missing_total (fun _ => PageResp.mk [⟨"st2", "x", "1.0.0", "1"⟩] none) rfl
    none none none none false "descending"

/-! ### Claim theorems for token lookup and destruction -/

/-- C8 (counterexample): `destroy_master_token` has no `break` — with two
tokens both named `"a"` it issues a DELETE for both, not only for the
first match as the claim states. -/
theorem destroy_master_token_counterexample :
    destroy_master_token [⟨"a", "v1", "p1"⟩, ⟨"a", "v2", "p2"⟩] "a" = ["p1", "p2"] ∧
    (["p1", "p2"] : List String) ≠ ["p1"] := by
  constructor
  · decide
  · decide

/-- C8 (amended): `get_master_token` returns the first token in listing
order whose name equals the requested name (`List.find?`), and `none` —
not an exception — exactly when no name matches; `destroy_read_token`
destroys the first match and returns its value when that DELETE succeeds;
but `destroy_master_token` issues a destroy call for every matching token
in iteration order, not only the first. -/
theorem token_lookup_spec :
    (∀ (tokens : List Token) (name : String),
       get_master_token tokens name = tokens.find? (fun t => t.name == name)) ∧
    (∀ (tokens : List Token) (name : String),
       get_master_token tokens name = none ↔ ∀ t, t ∈ tokens → t.name ≠ name) ∧
    (∀ (tokens : List Token) (name : String),
       destroy_master_token tokens name =
         (tokens.filter (fun t => t.name == name)).map Token.id) ∧
    (∀ (tokens : List Token) (name : String) (ok : String → Bool) (t : Token),
       tokens.find? (fun t => t.name == name) = some t → ok t.id = true →
       destroy_read_token_scan tokens name ok = ([t.id], some t.value)) := by
  have hfind : ∀ (tokens : List Token) (name : String),
      get_master_token tokens name = tokens.find? (fun t => t.name == name) := by
    intro tokens name
    induction tokens with
    | nil => rfl
    | cons t rest ih =>
      by_cases h : t.name = name
      · simp [get_master_token, h, List.find?]
      · simp only [get_master_token, if_neg h, List.find?]
        rw [show (t.name == name) = false from beq_eq_false_iff_ne.mpr h]
        exact ih
  refine ⟨hfind, ?_, ?_, ?_⟩
  · intro tokens name
    rw [hfind]
    rw [List.find?_eq_none]
    constructor
    · intro h t ht hname
      exact absurd (beq_iff_eq.mpr hname) (by simpa using h t ht)
    · intro h t ht
      simpa using beq_eq_false_iff_ne.mpr (h t ht)
  · intro tokens name
    induction tokens with
    | nil => rfl
    | cons t rest ih =>
      by_cases h : t.name = name
      · rw [destroy_master_token, if_pos h]
        rw [List.filter_cons_of_pos (by simpa using h)]
        simp [ih]
      · rw [destroy_master_token, if_neg h]
        rw [List.filter_cons_of_neg (by simpa using h)]
        exact ih
  · intro tokens name ok t hfound hok
    induction tokens with
    | nil => simp [List.find?] at hfound
    | cons u rest ih =>
      by_cases h : u.name = name
      · have : u = t := by
          rw [List.find?_cons_of_pos _ (by simpa using h)] at hfound
          exact Option.some.injEq _ _ ▸ hfound
        subst this
        rw [destroy_read_token_scan.eq_def]
        simp [h, hok]
      · have hneg : ¬ ((fun t : Token => t.name == name) u = true) := by simpa using h
        rw [List.find?_cons_of_neg rest hneg] at hfound
        rw [destroy_read_token_scan.eq_def]
        simp only [if_neg h]
        exact ih hfound

/-- C8 (witness): `token_lookup_spec` on a concrete two-token listing:
lookup finds the second token by name, and destroying the read token
`"b"` (whose DELETE returns 204) deletes exactly it and returns its
value. -/
theorem token_lookup_spec_witness :
    get_master_token [⟨"a", "v1", "p1"⟩, ⟨"b", "v2", "p2"⟩] "b" =
      [(⟨"a", "v1", "p1"⟩ : Token), ⟨"b", "v2", "p2"⟩].find? (fun t => t.name == "b") ∧
    destroy_read_token_scan [⟨"a", "v1", "p1"⟩, ⟨"b", "v2", "p2"⟩] "b" (fun _ => true) =
      (["p2"], some "v2") :=
  ⟨token_lookup_spec.1 [⟨"a", "v1", "p1"⟩, ⟨"b", "v2", "p2"⟩] "b",
   token_lookup_spec.2.2.2 [⟨"a", "v1", "p1"⟩, ⟨"b", "v2", "p2"⟩] "b" (fun _ => true)
     ⟨"b", "v2", "p2"⟩ (by decide) rfl⟩
